import Mathlib

/-!
Verification of the watch-notification emulation layer of `src/harness/vfsutils.ts`:
the snapshot operation (`getStats` plus the `new vfs.Stats()` fallback), the file-watch
event classifier inside `watchFile`, the `fsWatch` Present/Missing path-watcher state
machine, the `watchDirectory` notification handler, and
`getAccessibleFileSystemEntries`.

The embedding is shallow: TypeScript functions become Lean functions, the mutable
per-watcher state (`prevStats`, `exists`, the `watcher` variable of each `fsWatch`
frame) becomes explicit state threading, thrown exceptions become `Except`, and
`undefined`-on-failure becomes `Option`.
-/

namespace VfsUtils

/-- The stat record of the hierarchical store (`vfs.Stats`): file/directory kind,
modification time in milliseconds (`mtimeMs`), and size. -/
structure Stats where
  isFile : Bool
  isDirectory : Bool
  mtimeMs : Nat
  size : Nat
deriving DecidableEq, Repr

/-- Modelled from the spec: the zero-argument `new vfs.Stats()` constructor of the
store (`vfs.ts`, not part of the sources) yields the absent snapshot
`exists:false, isDirectory:false, modTimeMillis:0`. -/
def emptyStats : Stats := { isFile := false, isDirectory := false, mtimeMs := 0, size := 0 }

/-- The stat snapshot of a present regular file whose modification time is `t`. -/
def mkFileStats (t : Nat) : Stats := { isFile := true, isDirectory := false, mtimeMs := t, size := 0 }

/-- The store interface consumed by the utilities: `readdirSync` and `statSync`,
each of which can fail (a thrown error is modelled as `Except.error`). -/
structure VFS where
  readdirSync : String → Except String (List String)
  statSync : String → Except String Stats

/-- Function `getStats` (vfsutils.ts lines 142-149): call `statSync` and turn any thrown
error into `undefined`. -/
def getStats (fs : VFS) (path : String) : Option Stats :=
  match fs.statSync path with
  | .ok stats => some stats
  | .error _ => none

/-- The snapshot taken by `watchFile` (lines 204 and 207):
`getStats(fs, path) || new vfs.Stats()`. Total by construction: it never raises. -/
def snapshotStats (fs : VFS) (path : String) : Stats :=
  (getStats fs path).getD emptyStats

/-- Modelled from the spec: `vpath.combine`, the path-join collaborator
(`vpath.ts`, not part of the sources). -/
def combine (path file : String) : String := path ++ "/" ++ file

/-- The entry-classification loop of `getAccessibleFileSystemEntries`
(lines 124-136): each entry is stat'ed; regular files go to `files`, directories
to `directories`, a failing stat is silently ignored. -/
def getAccessibleEntriesLoop (fs : VFS) (path : String)
    (files directories : List String) : List String → List String × List String
  | [] => (files, directories)
  | file :: rest =>
    match fs.statSync (combine path file) with
    | .ok stats =>
      if stats.isFile then getAccessibleEntriesLoop fs path (files ++ [file]) directories rest
      else if stats.isDirectory then getAccessibleEntriesLoop fs path files (directories ++ [file]) rest
      else getAccessibleEntriesLoop fs path files directories rest
    | .error _ => getAccessibleEntriesLoop fs path files directories rest

/-- Function `getAccessibleFileSystemEntries` (lines 121-140): list the directory, classify
each entry; if the listing itself fails, return empty lists. Total by construction. -/
def getAccessibleFileSystemEntries (fs : VFS) (path : String) : List String × List String :=
  match fs.readdirSync path with
  | .ok entries => getAccessibleEntriesLoop fs path [] [] entries
  | .error _ => ([], [])

/-- The event kinds `ts.FileWatcherEventKind`: the classified watch events. -/
inductive FileWatcherEventKind where
  | Created
  | Changed
  | Deleted
deriving DecidableEq, Repr

/-- The mutable state of the `watchFile` adapter: the last stored snapshot
(`prevStats`) and the belief bit (source variable `exists`, line 205). -/
structure WatchFileState where
  prevStats : Stats
  believedExists : Bool
deriving DecidableEq, Repr

/-- The candidate event kind computed at lines 211-213 of `watchFile`:
`Created` when the current time is nonzero and the previous is zero, `Deleted`
when the current is zero and the previous nonzero, otherwise `Changed`. -/
def candidateKind (prevTime currTime : Nat) : FileWatcherEventKind :=
  if currTime ≠ 0 ∧ prevTime = 0 then .Created
  else if currTime = 0 ∧ prevTime ≠ 0 then .Deleted
  else .Changed

/-- One run of the `watchFile` callback body (lines 206-229) on a freshly taken
snapshot `currStats`. Returns the updated adapter state and the event passed to
the caller's callback (`none` when the event is suppressed). -/
def watchFileStep (s : WatchFileState) (currStats : Stats) :
    WatchFileState × Option FileWatcherEventKind :=
  let currTime := currStats.mtimeMs
  let prevTime := s.prevStats.mtimeMs
  let eventKind := candidateKind prevTime currTime
  if eventKind = .Created ∧ s.believedExists = false then
    ({ s with believedExists := true }, none)
  else if eventKind = .Changed ∧ currTime ≤ prevTime then
    (s, none)
  else
    ({ prevStats := currStats, believedExists := eventKind != FileWatcherEventKind.Deleted },
      some eventKind)

/-- Run the `watchFile` callback over a sequence of snapshots (the snapshot the
callback takes at each low-level notification), collecting the events delivered
to the caller's callback in order. -/
def watchFileRun (s : WatchFileState) : List Stats → List FileWatcherEventKind
  | [] => []
  | c :: rest =>
    match watchFileStep s c with
    | (s', some k) => k :: watchFileRun s' rest
    | (s', none) => watchFileRun s' rest

/-- The adapter state produced at `watchFile` construction (lines 204-205) when
the watched file currently has modification time `m0` (`m0 = 0` means absent):
`prevStats = getStats(fs, path) || new vfs.Stats()` and `exists = fileExists(fs, path)`. -/
def initialWatchFileState (m0 : Nat) : WatchFileState :=
  { prevStats := if m0 = 0 then emptyStats else mkFileStats m0,
    believedExists := m0 != 0 }

/-- Abstract create/modify/delete operations applied to the watched path.
A create carries the modification times at which the path is allocated
(`open()`) and then written (`write()`); a modify carries the new modification
time; a delete removes the path. -/
inductive FsOp where
  | create (allocTime writeTime : Nat)
  | modify (t : Nat)
  | delete
deriving DecidableEq, Repr

def FsOp.isCreate : FsOp → Bool
  | .create _ _ => true
  | _ => false

def FsOp.isDelete : FsOp → Bool
  | .delete => true
  | _ => false

/-- Modelled from the spec: the store's notification granularity (`vfs.ts`, not
part of the sources). A create is an allocate-then-write sequence and delivers
two notifications (one after `open()`, one after `write()`), per the spec's
open-before-write discussion; a modify and a delete deliver one notification
each. The snapshot the `watchFile` callback takes at each notification is the
path's state after the corresponding store mutation. -/
def opSnapshots : FsOp → List Stats
  | .create a w => [mkFileStats a, mkFileStats w]
  | .modify t => [mkFileStats t]
  | .delete => [emptyStats]

/-- Well-formedness of an operation sequence against the current modification
time `m` of the watched path (`m = 0` means absent): a create applies only to an
absent path and assigns nonzero times, a modify and a delete apply only to a
present path, and a modify assigns a nonzero time. -/
def opsWF : Nat → List FsOp → Bool
  | _, [] => true
  | m, .create a w :: rest => m == 0 && a != 0 && w != 0 && opsWF w rest
  | m, .modify t :: rest => m != 0 && t != 0 && opsWF t rest
  | m, .delete :: rest => m != 0 && opsWF 0 rest

/-- The events `watchFile` delivers for an operation sequence applied to a path
whose modification time at construction is `m0`. -/
def watchFileEvents (m0 : Nat) (ops : List FsOp) : List FileWatcherEventKind :=
  watchFileRun (initialWatchFileState m0) (ops.flatMap opSnapshots)

/-- Modelled from the spec: the ideal event discipline. `lastTime` is the last
modification time the watcher accepted. Each create yields exactly one `Created`;
a modify yields `Changed` exactly when its time strictly exceeds `lastTime`
(and is otherwise suppressed); each delete yields exactly one `Deleted`. -/
def idealEvents (lastTime : Nat) : List FsOp → List FileWatcherEventKind
  | [] => []
  | .create _ w :: rest => .Created :: idealEvents w rest
  | .modify t :: rest =>
    if lastTime < t then .Changed :: idealEvents t rest else idealEvents lastTime rest
  | .delete :: rest => .Deleted :: idealEvents 0 rest

/-- C1 counterexample. The claim predicts that a candidate `Created` with
`believedExists = true` is suppressed and one with `believedExists = false` is
emitted. On the code (line 215: `eventKind === Created && !exists`) the opposite
happens at the concrete input `prev.mtimeMs = 0`, `curr = mkFileStats 5`:
with `believedExists = true` the callback receives `Created`, and with
`believedExists = false` no callback is invoked. -/
theorem watchFile_created_claim_cex :
    (watchFileStep { prevStats := emptyStats, believedExists := true } (mkFileStats 5)).2
      = some FileWatcherEventKind.Created
    ∧ (watchFileStep { prevStats := emptyStats, believedExists := false } (mkFileStats 5)).2
      = none := by
  exact ⟨rfl, rfl⟩

/-- C1 (amended): in the file-watch event classifier, when the candidate event is
`Created` but `believedExists` is still `false`, the event is suppressed (no
callback is invoked) while `believedExists` is set to `true` and the stored
previous snapshot is left unchanged; a candidate `Created` with `believedExists`
already `true` is emitted to the caller's callback. -/
theorem watchFile_created_suppression (s : WatchFileState) (c : Stats)
    (h : candidateKind s.prevStats.mtimeMs c.mtimeMs = .Created) :
    (s.believedExists = false → watchFileStep s c = ({ s with believedExists := true }, none))
    ∧ (s.believedExists = true →
        watchFileStep s c = ({ prevStats := c, believedExists := true }, some .Created)) := by
  constructor <;> intro hb <;> simp [watchFileStep, h, hb]

/-- Witness for `watchFile_created_suppression` at `prev = emptyStats`,
`curr = mkFileStats 5`, `believedExists = false`. -/
theorem watchFile_created_suppression_witness :
    candidateKind 0 5 = FileWatcherEventKind.Created
    ∧ watchFileStep { prevStats := emptyStats, believedExists := false } (mkFileStats 5)
      = ({ prevStats := emptyStats, believedExists := true }, none) :=
  ⟨rfl, (watchFile_created_suppression
      { prevStats := emptyStats, believedExists := false } (mkFileStats 5) rfl).1 rfl⟩

/-- C3: a candidate `Changed` whose current modification time does not strictly
exceed the stored previous one is suppressed — no callback, and the stored state
(previous snapshot and belief bit) is left unchanged; a candidate `Changed` with
a strictly larger modification time is emitted as `Changed` (lines 221-228). -/
theorem watchFile_changed_suppression (s : WatchFileState) (c : Stats)
    (h : candidateKind s.prevStats.mtimeMs c.mtimeMs = .Changed) :
    (c.mtimeMs ≤ s.prevStats.mtimeMs → watchFileStep s c = (s, none))
    ∧ (s.prevStats.mtimeMs < c.mtimeMs →
        watchFileStep s c = ({ prevStats := c, believedExists := true }, some .Changed)) := by
  constructor <;> intro hc <;> simp [watchFileStep, h, hc, Nat.not_le_of_lt]

/-- Witness for `watchFile_changed_suppression` at `prev = mkFileStats 5`,
`curr = mkFileStats 3` (a non-increasing modification time is suppressed). -/
theorem watchFile_changed_suppression_witness :
    candidateKind 5 3 = FileWatcherEventKind.Changed
    ∧ watchFileStep { prevStats := mkFileStats 5, believedExists := true } (mkFileStats 3)
      = ({ prevStats := mkFileStats 5, believedExists := true }, none) :=
  ⟨rfl, (watchFile_changed_suppression
      { prevStats := mkFileStats 5, believedExists := true } (mkFileStats 3) rfl).1 (by decide)⟩

/-- C5: taking a snapshot never raises. `snapshotStats` is a total function; when
the store's `statSync` fails it returns the absent snapshot (`exists` false, not
a directory, modification time 0) instead of propagating the failure, and when
`statSync` succeeds it returns the stat result unchanged. -/
theorem snapshot_never_fails (fs : VFS) (path : String) :
    (∀ e, fs.statSync path = .error e → snapshotStats fs path = emptyStats)
    ∧ (∀ s, fs.statSync path = .ok s → snapshotStats fs path = s)
    ∧ emptyStats = { isFile := false, isDirectory := false, mtimeMs := 0, size := 0 } := by
  refine ⟨fun e he => ?_, fun s hs => ?_, rfl⟩
  · simp [snapshotStats, getStats, he]
  · simp [snapshotStats, getStats, hs]

/-- A store on which every operation fails, as for a non-existent path. -/
def failingVFS : VFS :=
  { readdirSync := fun _ => .error "ENOENT: path does not exist",
    statSync := fun _ => .error "ENOENT: path does not exist" }

/-- Witness for `snapshot_never_fails` on a store whose `statSync` always fails. -/
theorem snapshot_never_fails_witness :
    snapshotStats failingVFS "/missing" = emptyStats :=
  (snapshot_never_fails failingVFS "/missing").1 "ENOENT: path does not exist" rfl

theorem candidateKind_created {prev curr : Nat} (hc : curr ≠ 0) (hp : prev = 0) :
    candidateKind prev curr = .Created := by
  simp [candidateKind, hc, hp]

theorem candidateKind_deleted {prev curr : Nat} (hc : curr = 0) (hp : prev ≠ 0) :
    candidateKind prev curr = .Deleted := by
  simp [candidateKind, hc, hp]

theorem candidateKind_changed_of_both_ne {prev curr : Nat} (hc : curr ≠ 0) (hp : prev ≠ 0) :
    candidateKind prev curr = .Changed := by
  simp [candidateKind, hc, hp]

theorem watchFileStep_created_false {s : WatchFileState} {c : Stats}
    (h : candidateKind s.prevStats.mtimeMs c.mtimeMs = .Created) (hb : s.believedExists = false) :
    watchFileStep s c = ({ s with believedExists := true }, none) := by
  simp [watchFileStep, h, hb]

theorem watchFileStep_created_true {s : WatchFileState} {c : Stats}
    (h : candidateKind s.prevStats.mtimeMs c.mtimeMs = .Created) (hb : s.believedExists = true) :
    watchFileStep s c = ({ prevStats := c, believedExists := true }, some .Created) := by
  simp [watchFileStep, h, hb]

theorem watchFileStep_changed_le {s : WatchFileState} {c : Stats}
    (h : candidateKind s.prevStats.mtimeMs c.mtimeMs = .Changed)
    (hc : c.mtimeMs ≤ s.prevStats.mtimeMs) :
    watchFileStep s c = (s, none) := by
  simp [watchFileStep, h, hc]

theorem watchFileStep_changed_gt {s : WatchFileState} {c : Stats}
    (h : candidateKind s.prevStats.mtimeMs c.mtimeMs = .Changed)
    (hc : s.prevStats.mtimeMs < c.mtimeMs) :
    watchFileStep s c = ({ prevStats := c, believedExists := true }, some .Changed) := by
  simp [watchFileStep, h, Nat.not_le_of_lt hc]

theorem watchFileStep_deleted {s : WatchFileState} {c : Stats}
    (h : candidateKind s.prevStats.mtimeMs c.mtimeMs = .Deleted) :
    watchFileStep s c = ({ prevStats := c, believedExists := false }, some .Deleted) := by
  simp [watchFileStep, h]

theorem watchFileRun_cons_some {s : WatchFileState} {c : Stats} {s' : WatchFileState}
    {k : FileWatcherEventKind} (cs : List Stats) (h : watchFileStep s c = (s', some k)) :
    watchFileRun s (c :: cs) = k :: watchFileRun s' cs := by
  rw [watchFileRun, h]

theorem watchFileRun_cons_none {s : WatchFileState} {c : Stats} {s' : WatchFileState}
    (cs : List Stats) (h : watchFileStep s c = (s', none)) :
    watchFileRun s (c :: cs) = watchFileRun s' cs := by
  rw [watchFileRun, h]

/-- Core simulation for C2: over any well-formed operation sequence, the events
delivered by the `watchFile` classifier equal the ideal event discipline.
`m` is the path's current modification time and `ps` the stored previous
snapshot, whose time dominates `m` and is zero when the path is absent. -/
theorem watchFileRun_eq_ideal (ops : List FsOp) :
    ∀ (m : Nat) (ps : Stats), opsWF m ops = true → m ≤ ps.mtimeMs → (m = 0 → ps.mtimeMs = 0) →
    watchFileRun { prevStats := ps, believedExists := m != 0 } (ops.flatMap opSnapshots) =
      idealEvents ps.mtimeMs ops := by
  induction ops with
  | nil => intro m ps _ _ _; simp [watchFileRun, idealEvents]
  | cons op rest ih =>
    intro m ps hwf hle h0
    cases op with
    | create a w =>
      simp only [opsWF, Bool.and_eq_true, beq_iff_eq, bne_iff_ne, ne_eq] at hwf
      obtain ⟨⟨⟨hm, ha⟩, hw⟩, hrest⟩ := hwf
      subst hm
      have hps : ps.mtimeMs = 0 := h0 rfl
      have hb0 : ((0 : Nat) != 0) = false := rfl
      rw [List.flatMap_cons]
      simp only [opSnapshots, List.cons_append, List.nil_append]
      rw [watchFileRun_cons_none _ (watchFileStep_created_false (candidateKind_created ha hps) hb0)]
      rw [watchFileRun_cons_some _ (watchFileStep_created_true (candidateKind_created hw hps) rfl)]
      have hbw : (w != 0) = true := bne_iff_ne.mpr hw
      rw [idealEvents, ← hbw]
      rw [ih w (mkFileStats w) hrest (Nat.le_refl w) (fun h => absurd h hw)]
      rfl
    | modify t =>
      simp only [opsWF, Bool.and_eq_true, bne_iff_ne, ne_eq] at hwf
      obtain ⟨⟨hm, ht⟩, hrest⟩ := hwf
      have hp : ps.mtimeMs ≠ 0 := by omega
      have hbm : (m != 0) = true := bne_iff_ne.mpr hm
      have hbt : (t != 0) = true := bne_iff_ne.mpr ht
      rw [List.flatMap_cons]
      simp only [opSnapshots, List.cons_append, List.nil_append]
      by_cases hcmp : t ≤ ps.mtimeMs
      · rw [watchFileRun_cons_none _
          (watchFileStep_changed_le (candidateKind_changed_of_both_ne ht hp) hcmp)]
        rw [idealEvents, if_neg (by omega)]
        rw [hbm, ← hbt]
        exact ih t ps hrest hcmp (fun h => absurd h ht)
      · rw [watchFileRun_cons_some _
          (watchFileStep_changed_gt (candidateKind_changed_of_both_ne ht hp)
            (show ps.mtimeMs < t by omega))]
        rw [idealEvents, if_pos (by omega)]
        rw [← hbt]
        rw [ih t (mkFileStats t) hrest (Nat.le_refl t) (fun h => absurd h ht)]
        rfl
    | delete =>
      simp only [opsWF, Bool.and_eq_true, bne_iff_ne, ne_eq] at hwf
      obtain ⟨hm, hrest⟩ := hwf
      have hp : ps.mtimeMs ≠ 0 := by omega
      rw [List.flatMap_cons]
      simp only [opSnapshots, List.cons_append, List.nil_append]
      rw [watchFileRun_cons_some _ (watchFileStep_deleted (candidateKind_deleted rfl hp))]
      rw [idealEvents]
      rw [show (false : Bool) = ((0 : Nat) != 0) from rfl]
      rw [ih 0 emptyStats hrest (Nat.le_refl 0) (fun _ => rfl)]
      rfl

theorem idealEvents_count_created (ops : List FsOp) :
    ∀ P : Nat, (idealEvents P ops).count FileWatcherEventKind.Created
      = (ops.filter FsOp.isCreate).length := by
  induction ops with
  | nil => intro P; simp [idealEvents]
  | cons op rest ih =>
    intro P
    cases op with
    | create a w => simp [idealEvents, List.count_cons, FsOp.isCreate, ih]
    | modify t =>
      by_cases h : P < t <;>
        simp [idealEvents, h, List.count_cons, FsOp.isCreate, ih]
    | delete => simp [idealEvents, List.count_cons, FsOp.isCreate, ih]

theorem idealEvents_count_deleted (ops : List FsOp) :
    ∀ P : Nat, (idealEvents P ops).count FileWatcherEventKind.Deleted
      = (ops.filter FsOp.isDelete).length := by
  induction ops with
  | nil => intro P; simp [idealEvents]
  | cons op rest ih =>
    intro P
    cases op with
    | create a w => simp [idealEvents, List.count_cons, FsOp.isDelete, ih]
    | modify t =>
      by_cases h : P < t <;>
        simp [idealEvents, h, List.count_cons, FsOp.isDelete, ih]
    | delete => simp [idealEvents, List.count_cons, FsOp.isDelete, ih]

/-- C2: for every well-formed sequence of create/modify/delete operations applied
to the watched path, the events `watchFile` delivers are exactly the ideal event
discipline: one `Created` per create (absent→present transition, with no
duplicate for the allocate-then-write notification pair), `Changed` exactly for a
modification time strictly above the last accepted one, and one `Deleted` per
delete (present→absent transition). In particular the `Created` count equals the
number of creates and the `Deleted` count the number of deletes. -/
theorem watchFile_event_discipline (m0 : Nat) (ops : List FsOp) (h : opsWF m0 ops = true) :
    watchFileEvents m0 ops = idealEvents m0 ops
    ∧ (watchFileEvents m0 ops).count FileWatcherEventKind.Created
      = (ops.filter FsOp.isCreate).length
    ∧ (watchFileEvents m0 ops).count FileWatcherEventKind.Deleted
      = (ops.filter FsOp.isDelete).length := by
  have hps : (if m0 = 0 then emptyStats else mkFileStats m0).mtimeMs = m0 := by
    by_cases h0 : m0 = 0 <;> simp [h0, emptyStats, mkFileStats]
  have main : watchFileEvents m0 ops = idealEvents m0 ops := by
    unfold watchFileEvents initialWatchFileState
    rw [watchFileRun_eq_ideal ops m0 _ h (by omega) (fun h0 => by omega), hps]
  exact ⟨main, by rw [main, idealEvents_count_created],
    by rw [main, idealEvents_count_deleted]⟩

/-- Witness for `watchFile_event_discipline`: start absent, create (allocate at
time 1, write at time 2), modify to time 3, modify again without advancing the
time, delete. The delivered events are exactly `Created`, `Changed`, `Deleted`. -/
theorem watchFile_event_discipline_witness :
    opsWF 0 [FsOp.create 1 2, FsOp.modify 3, FsOp.modify 3, FsOp.delete] = true
    ∧ (watchFileEvents 0 [FsOp.create 1 2, FsOp.modify 3, FsOp.modify 3, FsOp.delete]
        = idealEvents 0 [FsOp.create 1 2, FsOp.modify 3, FsOp.modify 3, FsOp.delete]
      ∧ (watchFileEvents 0 [FsOp.create 1 2, FsOp.modify 3, FsOp.modify 3,
          FsOp.delete]).count FileWatcherEventKind.Created
        = ([FsOp.create 1 2, FsOp.modify 3, FsOp.modify 3,
            FsOp.delete].filter FsOp.isCreate).length
      ∧ (watchFileEvents 0 [FsOp.create 1 2, FsOp.modify 3, FsOp.modify 3,
          FsOp.delete]).count FileWatcherEventKind.Deleted
        = ([FsOp.create 1 2, FsOp.modify 3, FsOp.modify 3,
            FsOp.delete].filter FsOp.isDelete).length) :=
  ⟨rfl, watchFile_event_discipline 0
    [FsOp.create 1 2, FsOp.modify 3, FsOp.modify 3, FsOp.delete] rfl⟩

theorem loop_cons_err {fs : VFS} {path e : String} {err : String}
    (files directories rest : List String)
    (h : fs.statSync (combine path e) = .error err) :
    getAccessibleEntriesLoop fs path files directories (e :: rest)
      = getAccessibleEntriesLoop fs path files directories rest := by
  rw [getAccessibleEntriesLoop, h]

theorem loop_cons_file {fs : VFS} {path e : String} {st : Stats}
    (files directories rest : List String)
    (h : fs.statSync (combine path e) = .ok st) (hf : st.isFile = true) :
    getAccessibleEntriesLoop fs path files directories (e :: rest)
      = getAccessibleEntriesLoop fs path (files ++ [e]) directories rest := by
  rw [getAccessibleEntriesLoop, h]
  simp only [hf, if_true]

theorem loop_cons_dir {fs : VFS} {path e : String} {st : Stats}
    (files directories rest : List String)
    (h : fs.statSync (combine path e) = .ok st) (hf : st.isFile = false)
    (hd : st.isDirectory = true) :
    getAccessibleEntriesLoop fs path files directories (e :: rest)
      = getAccessibleEntriesLoop fs path files (directories ++ [e]) rest := by
  rw [getAccessibleEntriesLoop, h]
  simp only [hf, hd, if_true, if_false, Bool.false_eq_true]

theorem loop_cons_other {fs : VFS} {path e : String} {st : Stats}
    (files directories rest : List String)
    (h : fs.statSync (combine path e) = .ok st) (hf : st.isFile = false)
    (hd : st.isDirectory = false) :
    getAccessibleEntriesLoop fs path files directories (e :: rest)
      = getAccessibleEntriesLoop fs path files directories rest := by
  rw [getAccessibleEntriesLoop, h]
  simp only [hf, hd, if_false, Bool.false_eq_true]

/-- Every name accumulated by the classification loop either was already in the
accumulator or is a listed entry whose stat succeeded with the matching kind. -/
theorem getAccessibleEntriesLoop_mem (fs : VFS) (path : String) :
    ∀ (entries files directories : List String),
      (∀ name, name ∈ (getAccessibleEntriesLoop fs path files directories entries).1 →
        name ∈ files ∨ (name ∈ entries ∧
          ∃ st, fs.statSync (combine path name) = .ok st ∧ st.isFile = true))
      ∧ (∀ name, name ∈ (getAccessibleEntriesLoop fs path files directories entries).2 →
        name ∈ directories ∨ (name ∈ entries ∧
          ∃ st, fs.statSync (combine path name) = .ok st ∧ st.isDirectory = true)) := by
  intro entries
  induction entries with
  | nil =>
    intro files directories
    constructor <;> intro name hmem <;> simp only [getAccessibleEntriesLoop] at hmem <;>
      exact Or.inl hmem
  | cons e rest ih =>
    intro files directories
    have weaken1 : ∀ name, name ∈ rest ∧
        (∃ st, fs.statSync (combine path name) = .ok st ∧ st.isFile = true) →
        name ∈ (e :: rest) ∧
          ∃ st, fs.statSync (combine path name) = .ok st ∧ st.isFile = true :=
      fun name h => ⟨List.mem_cons_of_mem e h.1, h.2⟩
    have weaken2 : ∀ name, name ∈ rest ∧
        (∃ st, fs.statSync (combine path name) = .ok st ∧ st.isDirectory = true) →
        name ∈ (e :: rest) ∧
          ∃ st, fs.statSync (combine path name) = .ok st ∧ st.isDirectory = true :=
      fun name h => ⟨List.mem_cons_of_mem e h.1, h.2⟩
    rcases hstat : fs.statSync (combine path e) with err | st
    · rw [loop_cons_err files directories rest hstat]
      refine ⟨fun name hmem => ?_, fun name hmem => ?_⟩
      · rcases (ih files directories).1 name hmem with h | h
        · exact Or.inl h
        · exact Or.inr (weaken1 name h)
      · rcases (ih files directories).2 name hmem with h | h
        · exact Or.inl h
        · exact Or.inr (weaken2 name h)
    · rcases hf : st.isFile with _ | _
      · rcases hd : st.isDirectory with _ | _
        · rw [loop_cons_other files directories rest hstat hf hd]
          refine ⟨fun name hmem => ?_, fun name hmem => ?_⟩
          · rcases (ih files directories).1 name hmem with h | h
            · exact Or.inl h
            · exact Or.inr (weaken1 name h)
          · rcases (ih files directories).2 name hmem with h | h
            · exact Or.inl h
            · exact Or.inr (weaken2 name h)
        · rw [loop_cons_dir files directories rest hstat hf hd]
          refine ⟨fun name hmem => ?_, fun name hmem => ?_⟩
          · rcases (ih files (directories ++ [e])).1 name hmem with h | h
            · exact Or.inl h
            · exact Or.inr (weaken1 name h)
          · rcases (ih files (directories ++ [e])).2 name hmem with h | h
            · rcases List.mem_append.mp h with h | h
              · exact Or.inl h
              · have he : name = e := List.mem_singleton.mp h
                subst he
                exact Or.inr ⟨List.mem_cons_self name rest, st, hstat, hd⟩
            · exact Or.inr (weaken2 name h)
      · rw [loop_cons_file files directories rest hstat hf]
        refine ⟨fun name hmem => ?_, fun name hmem => ?_⟩
        · rcases (ih (files ++ [e]) directories).1 name hmem with h | h
          · rcases List.mem_append.mp h with h | h
            · exact Or.inl h
            · have he : name = e := List.mem_singleton.mp h
              subst he
              exact Or.inr ⟨List.mem_cons_self name rest, st, hstat, hf⟩
          · exact Or.inr (weaken1 name h)
        · rcases (ih (files ++ [e]) directories).2 name hmem with h | h
          · exact Or.inl h
          · exact Or.inr (weaken2 name h)

/-- C10: `getAccessibleFileSystemEntries` never raises (it is total by
construction); when the listing fails it returns empty `files` and `directories`;
and every name in its result is a listed entry whose stat succeeded and is
classified as a file or directory accordingly — entries whose stat fails are
silently omitted. -/
theorem getAccessibleFileSystemEntries_spec (fs : VFS) (path : String) :
    ((∃ e, fs.readdirSync path = .error e) → getAccessibleFileSystemEntries fs path = ([], []))
    ∧ (∀ entries name, fs.readdirSync path = .ok entries →
        (name ∈ (getAccessibleFileSystemEntries fs path).1 →
          name ∈ entries ∧ ∃ st, fs.statSync (combine path name) = .ok st ∧ st.isFile = true)
        ∧ (name ∈ (getAccessibleFileSystemEntries fs path).2 →
          name ∈ entries ∧
            ∃ st, fs.statSync (combine path name) = .ok st ∧ st.isDirectory = true)) := by
  constructor
  · rintro ⟨e, he⟩
    simp [getAccessibleFileSystemEntries, he]
  · intro entries name hok
    have hunfold : getAccessibleFileSystemEntries fs path
        = getAccessibleEntriesLoop fs path [] [] entries := by
      simp [getAccessibleFileSystemEntries, hok]
    constructor <;> intro hmem <;> rw [hunfold] at hmem
    · rcases (getAccessibleEntriesLoop_mem fs path entries [] []).1 name hmem with h | h
      · exact absurd h (List.not_mem_nil name)
      · exact h
    · rcases (getAccessibleEntriesLoop_mem fs path entries [] []).2 name hmem with h | h
      · exact absurd h (List.not_mem_nil name)
      · exact h

/-- A concrete store for the C10 witness: the root lists a file `f`, a directory
`d`, and an entry `x` whose stat fails. -/
def mixedVFS : VFS :=
  { readdirSync := fun p => if p = "/" then .ok ["f", "d", "x"] else .error "ENOENT",
    statSync := fun p =>
      if p = "//f" then .ok (mkFileStats 5)
      else if p = "//d" then .ok { isFile := false, isDirectory := true, mtimeMs := 0, size := 0 }
      else .error "ENOENT" }

/-- Witness for `getAccessibleFileSystemEntries_spec`: a failing listing yields
empty results, and on `mixedVFS` the classified names come with succeeding stats
of the right kind. -/
theorem getAccessibleFileSystemEntries_spec_witness :
    getAccessibleFileSystemEntries failingVFS "/" = ([], [])
    ∧ ("f" ∈ ["f", "d", "x"]
        ∧ ∃ st, mixedVFS.statSync (combine "/" "f") = .ok st ∧ st.isFile = true)
    ∧ ("d" ∈ ["f", "d", "x"]
        ∧ ∃ st, mixedVFS.statSync (combine "/" "d") = .ok st ∧ st.isDirectory = true) :=
  ⟨(getAccessibleFileSystemEntries_spec failingVFS "/").1
      ⟨"ENOENT: path does not exist", rfl⟩,
    ((getAccessibleFileSystemEntries_spec mixedVFS "/").2 ["f", "d", "x"] "f" rfl).1
      (by decide),
    ((getAccessibleFileSystemEntries_spec mixedVFS "/").2 ["f", "d", "x"] "d" rfl).2
      (by decide)⟩

/-! ## The `fsWatch` Present/Missing path-watcher state machine (lines 239-274) -/

/-- Canonical absolute paths, represented as the list of segments from the leaf
upward: `/a/b/c` is `["c", "b", "a"]` and the root `/` is `[]`. With this
representation the path-utility collaborator's `dirname` is `List.tail` (the
dirname of the root is the root itself, so `dirname === path` iff the path is
the root) and `basename` is the head. -/
abbrev SegPath := List String

/-- Modelled from the spec: `vpath.dirname` on canonical paths. -/
def dirname (p : SegPath) : SegPath := p.tail

/-- Modelled from the spec: `vpath.basename` on canonical paths (the base name of the root is empty). -/
def basename (p : SegPath) : String := p.headD ""

/-- What the store holds at a path: nothing, a regular file, or a directory. -/
inductive EntryKind where
  | absent
  | file
  | dir
deriving DecidableEq, Repr

/-- A point-in-time view of the store: the kind of entry at every path. -/
abbrev FsView := SegPath → EntryKind

/-- The two existence predicates `fsWatch` is instantiated with: `fileExists`
(by `watchFile`) and `directoryExists` (by `watchDirectory` and by every
recursive ancestor level inside `watchMissing`). -/
inductive ExistsK where
  | file
  | dir
deriving DecidableEq, Repr

/-- The existence test `exists(fs, path)` (lines 161-169): `fileExists` holds
when the stat reports a regular file, `directoryExists` when it reports a
directory. -/
def exTest (fs : FsView) (k : ExistsK) (p : SegPath) : Bool :=
  match k with
  | .file => fs p == EntryKind.file
  | .dir => fs p == EntryKind.dir

/-- The store invariant that the filesystem root exists and is a directory. -/
def rootIsDir (fs : FsView) : Prop := fs [] = EntryKind.dir

/-- The value of one `fsWatch` frame's mutable `watcher` variable, recursively:
either a direct registration on the frame's path (`watchPresent`, the
registration identified by a fresh id), or the delegated `fsWatch` chain on the
parent path (`watchMissing`). The chain always ends in exactly one `present`
leaf — each frame owns exactly one watcher value at a time. -/
inductive WTree where
  | present (path : SegPath) (regId : Nat)
  | missing (path : SegPath) (sub : WTree)
deriving DecidableEq, Repr

/-- The registration id of the single live low-level registration of a chain. -/
def leafReg : WTree → Nat
  | .present _ r => r
  | .missing _ sub => leafReg sub

/-- The path on which the single live low-level registration is rooted. -/
def leafPath : WTree → SegPath
  | .present p _ => p
  | .missing _ sub => leafPath sub

/-- Store-level registration effects, in execution order: `fs.watch(path)`
creating registration `id`, and a registration's `close()`. -/
inductive Effect where
  | openReg (path : SegPath) (id : Nat)
  | closeReg (id : Nat)
deriving DecidableEq, Repr

/-- The construction phase of `fsWatch(fs, path, exists, callback)` (lines
240-242 plus `watchMissing`'s recursion, lines 262-266): if the path passes the
existence test, open a direct registration (`watchPresent`); otherwise delegate
to the parent (`watchMissing`), failing with the `ENOENT` configuration error
when the path is its own dirname (the root). Returns the watcher chain, the
next fresh registration id, and the registration effects. -/
def fsWatchInit (fs : FsView) (k : ExistsK) : SegPath → Nat →
    Except Unit (WTree × Nat × List Effect)
  | p, n =>
    if exTest fs k p then .ok (.present p n, n + 1, [Effect.openReg p n])
    else
      match p with
      | [] => .error ()
      | _ :: rest =>
        match fsWatchInit fs .dir rest n with
        | .error e => .error e
        | .ok (t, n', effs) => .ok (.missing p t, n', effs)

/-- Processing of one raw store notification `(eventType, filename)` delivered
to the chain's single live registration. A `present` frame's registration was
created as `fs.watch(path, callback)` (line 251), so the notification goes
straight to the frame's callback — for the innermost frame of a `missing` chain
that callback is the enclosing frame's `watchMissing` handler (lines 266-272),
which on a rename matching the frame's base name (per the configured comparer
`cmp`) with the existence test now succeeding closes the delegated registration,
opens a direct one, and emits the synthetic `("rename", "")` to its own
callback. The returned option is the event that reaches the outermost caller's
callback. `k` is the outermost frame's existence predicate; every inner frame
uses `directoryExists`. -/
def notifyStep (fs : FsView) (cmp : String → String → Bool) :
    ExistsK → WTree → String → String → Nat →
      WTree × Nat × List Effect × Option (String × String)
  | _, .present p r, et, fn, n => (.present p r, n, [], some (et, fn))
  | k, .missing p sub, et, fn, n =>
    match notifyStep fs cmp .dir sub et fn n with
    | (sub', n', effs, none) => (.missing p sub', n', effs, none)
    | (sub', n', effs, some (et', fn')) =>
      if et' == "rename" && cmp (basename p) fn' && exTest fs k p then
        (.present p n', n' + 1,
          effs ++ [Effect.closeReg (leafReg sub'), Effect.openReg p n'],
          some ("rename", ""))
      else (.missing p sub', n', effs, none)

/-- Processing of an error signal on the chain's single live registration. The
innermost `present` frame attached the error handler (lines 252-258): when the
existence test now fails it closes the registration and reconstructs a
`watchMissing` chain from the parent, emitting the synthetic `("rename", "")`
upward, where enclosing `watchMissing` handlers treat it like any other
notification. Throws (`Except.error`) only if the reconstruction reaches a
nonexistent root. -/
def errorStep (fs : FsView) (cmp : String → String → Bool) :
    ExistsK → WTree → Nat →
      Except Unit (WTree × Nat × List Effect × Option (String × String))
  | k, .present p r, n =>
    if exTest fs k p then .ok (.present p r, n, [], none)
    else
      match p with
      | [] => .error ()
      | _ :: rest =>
        match fsWatchInit fs .dir rest n with
        | .error e => .error e
        | .ok (sub, n', effs) =>
          .ok (.missing p sub, n', Effect.closeReg r :: effs, some ("rename", ""))
  | k, .missing p sub, n =>
    match errorStep fs cmp .dir sub n with
    | .error e => .error e
    | .ok (sub', n', effs, none) => .ok (.missing p sub', n', effs, none)
    | .ok (sub', n', effs, some (et', fn')) =>
      if et' == "rename" && cmp (basename p) fn' && exTest fs k p then
        .ok (.present p n', n' + 1,
          effs ++ [Effect.closeReg (leafReg sub'), Effect.openReg p n'],
          some ("rename", ""))
      else .ok (.missing p sub', n', effs, none)

/-- A raw event the store can deliver to the live registration: a notification
with an event type and file name, or the error signal. -/
inductive RawEvent where
  | notify (eventType filename : String)
  | errorSig
deriving DecidableEq, Repr

/-- Dispatch one raw event against the store view current at delivery time. -/
def watchStep (cmp : String → String → Bool) (k : ExistsK) (fs : FsView)
    (ev : RawEvent) (t : WTree) (n : Nat) :
    Except Unit (WTree × Nat × List Effect × Option (String × String)) :=
  match ev with
  | .notify et fn => .ok (notifyStep fs cmp k t et fn n)
  | .errorSig => errorStep fs cmp k t n

/-- Fold a sequence of raw events (each paired with the store view at delivery
time) over the watcher, accumulating the registration effects and the events
that reached the caller's callback. -/
def runSteps (cmp : String → String → Bool) (k : ExistsK) :
    List (FsView × RawEvent) → WTree → Nat →
      Except Unit (WTree × Nat × List Effect × List (String × String))
  | [], t, n => .ok (t, n, [], [])
  | (fs, ev) :: rest, t, n =>
    match watchStep cmp k fs ev t n with
    | .error e => .error e
    | .ok (t', n', effs, out) =>
      match runSteps cmp k rest t' n' with
      | .error e => .error e
      | .ok (t'', n'', effs', outs) =>
        .ok (t'', n'', effs ++ effs', out.toList ++ outs)

/-- The set of live registrations after a list of effects: an open appends the
fresh id, a close removes it (closing an already-closed registration is a no-op
on the live set). -/
def liveOf (init : List Nat) (effs : List Effect) : List Nat :=
  effs.foldl
    (fun l e =>
      match e with
      | Effect.openReg _ i => l ++ [i]
      | Effect.closeReg i => l.erase i)
    init

/-- The relation `CloseOpenChain r effs r'` says the effect list is a sequence of transitions
each of which first closes the currently live registration and only then opens
its replacement, starting from live registration `r` and ending with `r'`. -/
inductive CloseOpenChain : Nat → List Effect → Nat → Prop where
  | nil : ∀ r, CloseOpenChain r [] r
  | step : ∀ (r : Nat) (p : SegPath) (r' : Nat) (effs : List Effect) (r'' : Nat),
      CloseOpenChain r' effs r'' →
      CloseOpenChain r (Effect.closeReg r :: Effect.openReg p r' :: effs) r''

theorem fsWatchInit_nil (fs : FsView) (k : ExistsK) (n : Nat) :
    fsWatchInit fs k [] n =
      if exTest fs k [] then .ok (.present [] n, n + 1, [Effect.openReg [] n])
      else .error () := by
  rw [fsWatchInit]

theorem fsWatchInit_cons (fs : FsView) (k : ExistsK) (s : String) (rest : SegPath) (n : Nat) :
    fsWatchInit fs k (s :: rest) n =
      if exTest fs k (s :: rest) then
        .ok (.present (s :: rest) n, n + 1, [Effect.openReg (s :: rest) n])
      else
        match fsWatchInit fs .dir rest n with
        | .error e => .error e
        | .ok (t, n', effs) => .ok (.missing (s :: rest) t, n', effs) := by
  rw [fsWatchInit]

/-- A successful construction opens exactly one registration, with the fresh id
`n`, rooted at the leaf of the produced chain. -/
theorem fsWatchInit_effects (fs : FsView) :
    ∀ (p : SegPath) (k : ExistsK) (n : Nat) (t : WTree) (n' : Nat) (effs : List Effect),
      fsWatchInit fs k p n = .ok (t, n', effs) →
      effs = [Effect.openReg (leafPath t) n] ∧ leafReg t = n ∧ n' = n + 1 := by
  intro p
  induction p with
  | nil =>
    intro k n t n' effs h
    rw [fsWatchInit_nil] at h
    split at h
    · simp only [Except.ok.injEq, Prod.mk.injEq] at h
      obtain ⟨rfl, rfl, rfl⟩ := h
      exact ⟨rfl, rfl, rfl⟩
    · simp at h
  | cons s rest ih =>
    intro k n t n' effs h
    rw [fsWatchInit_cons] at h
    split at h
    · simp only [Except.ok.injEq, Prod.mk.injEq] at h
      obtain ⟨rfl, rfl, rfl⟩ := h
      exact ⟨rfl, rfl, rfl⟩
    · split at h
      · simp at h
      · rename_i t0 n0 effs0 heq
        simp only [Except.ok.injEq, Prod.mk.injEq] at h
        obtain ⟨rfl, rfl, rfl⟩ := h
        obtain ⟨he, hl, hn⟩ := ih .dir n t0 n0 effs0 heq
        exact ⟨by rw [he]; rfl, hl, hn⟩

theorem CloseOpenChain.append {r : Nat} {a : List Effect} {r' : Nat} {b : List Effect} {r'' : Nat}
    (h1 : CloseOpenChain r a r') (h2 : CloseOpenChain r' b r'') :
    CloseOpenChain r (a ++ b) r'' := by
  induction h1 with
  | nil => exact h2
  | step r p rm effs rend _ ih => exact CloseOpenChain.step _ _ _ _ _ (ih h2)

/-- A notification step produces a close-before-open transition chain from the
previously live registration to the new one. -/
theorem notifyStep_chain (fs : FsView) (cmp : String → String → Bool) :
    ∀ (t : WTree) (k : ExistsK) (et fn : String) (n : Nat),
      CloseOpenChain (leafReg t) (notifyStep fs cmp k t et fn n).2.2.1
        (leafReg (notifyStep fs cmp k t et fn n).1) := by
  intro t
  induction t with
  | present p r => intro k et fn n; exact CloseOpenChain.nil r
  | missing p sub ih =>
    intro k et fn n
    rw [notifyStep]
    rcases hrec : notifyStep fs cmp .dir sub et fn n with ⟨sub', n', effs, ev⟩
    have hchain := ih .dir et fn n
    rw [hrec] at hchain
    rcases ev with _ | ⟨et', fn'⟩
    · exact hchain
    · by_cases hcond : (et' == "rename" && cmp (basename p) fn' && exTest fs k p) = true
      · simp only [hcond, if_true]
        refine CloseOpenChain.append hchain ?_
        exact CloseOpenChain.step (leafReg sub') p n' [] n' (CloseOpenChain.nil n')
      · simp only [hcond, if_false]
        exact hchain

theorem errorStep_present (fs : FsView) (cmp : String → String → Bool) (k : ExistsK)
    (p : SegPath) (r : Nat) (n : Nat) :
    errorStep fs cmp k (.present p r) n =
      if exTest fs k p then .ok (.present p r, n, [], none)
      else
        match p with
        | [] => .error ()
        | _ :: rest =>
          match fsWatchInit fs .dir rest n with
          | .error e => .error e
          | .ok (sub, n', effs) =>
            .ok (.missing p sub, n', Effect.closeReg r :: effs, some ("rename", "")) := rfl

theorem errorStep_missing (fs : FsView) (cmp : String → String → Bool) (k : ExistsK)
    (p : SegPath) (sub : WTree) (n : Nat) :
    errorStep fs cmp k (.missing p sub) n =
      match errorStep fs cmp .dir sub n with
      | .error e => .error e
      | .ok (sub', n', effs, none) => .ok (.missing p sub', n', effs, none)
      | .ok (sub', n', effs, some (et', fn')) =>
        if et' == "rename" && cmp (basename p) fn' && exTest fs k p then
          .ok (.present p n', n' + 1,
            effs ++ [Effect.closeReg (leafReg sub'), Effect.openReg p n'],
            some ("rename", ""))
        else .ok (.missing p sub', n', effs, none) := rfl

theorem runSteps_cons (cmp : String → String → Bool) (k : ExistsK) (fs : FsView)
    (ev : RawEvent) (rest : List (FsView × RawEvent)) (t : WTree) (n : Nat) :
    runSteps cmp k ((fs, ev) :: rest) t n =
      match watchStep cmp k fs ev t n with
      | .error e => .error e
      | .ok (t', n', effs, out) =>
        match runSteps cmp k rest t' n' with
        | .error e => .error e
        | .ok (t'', n'', effs', outs) =>
          .ok (t'', n'', effs ++ effs', out.toList ++ outs) := rfl

/-- An error step, when it does not throw, likewise produces a close-before-open
transition chain. -/
theorem errorStep_chain (fs : FsView) (cmp : String → String → Bool) :
    ∀ (t : WTree) (k : ExistsK) (n : Nat) (t' : WTree) (n' : Nat) (effs : List Effect)
      (ev : Option (String × String)),
      errorStep fs cmp k t n = .ok (t', n', effs, ev) →
      CloseOpenChain (leafReg t) effs (leafReg t') := by
  intro t
  induction t with
  | present p r =>
    intro k n t' n' effs ev h
    rw [errorStep_present] at h
    split at h
    · simp only [Except.ok.injEq, Prod.mk.injEq] at h
      obtain ⟨rfl, rfl, rfl, rfl⟩ := h
      exact CloseOpenChain.nil r
    · split at h
      · simp at h
      · split at h
        · simp at h
        · rename_i sub n0 effs0 heq
          simp only [Except.ok.injEq, Prod.mk.injEq] at h
          obtain ⟨rfl, rfl, rfl, rfl⟩ := h
          obtain ⟨he, hl, hn⟩ := fsWatchInit_effects fs _ .dir n sub n0 effs0 heq
          rw [he, leafReg, ← hl]
          exact CloseOpenChain.step r (leafPath sub) (leafReg sub) [] (leafReg sub)
            (CloseOpenChain.nil (leafReg sub))
  | missing p sub ih =>
    intro k n t' n' effs ev h
    rw [errorStep_missing] at h
    rcases hrec : errorStep fs cmp .dir sub n with _ | ⟨sub', n0, effs0, ev0⟩
    · rw [hrec] at h; simp at h
    · simp only [hrec] at h
      have hchain := ih .dir n sub' n0 effs0 ev0 hrec
      rcases ev0 with _ | ⟨et', fn'⟩
      · simp only [Except.ok.injEq, Prod.mk.injEq] at h
        obtain ⟨rfl, rfl, rfl, rfl⟩ := h
        exact hchain
      · by_cases hcond : (et' == "rename" && cmp (basename p) fn' && exTest fs k p) = true
        · simp only [hcond, if_true, Except.ok.injEq, Prod.mk.injEq] at h
          obtain ⟨rfl, rfl, rfl, rfl⟩ := h
          refine CloseOpenChain.append hchain ?_
          exact CloseOpenChain.step (leafReg sub') p n0 [] n0 (CloseOpenChain.nil n0)
        · simp only [hcond, if_false, Except.ok.injEq, Prod.mk.injEq] at h
          obtain ⟨rfl, rfl, rfl, rfl⟩ := h
          exact hchain

/-- Over a whole run, the accumulated effects form one close-before-open
transition chain from the initially live registration to the final one. -/
theorem runSteps_chain (cmp : String → String → Bool) (k : ExistsK) :
    ∀ (steps : List (FsView × RawEvent)) (t : WTree) (n : Nat) (t' : WTree) (n' : Nat)
      (trace : List Effect) (outs : List (String × String)),
      runSteps cmp k steps t n = .ok (t', n', trace, outs) →
      CloseOpenChain (leafReg t) trace (leafReg t') := by
  intro steps
  induction steps with
  | nil =>
    intro t n t' n' trace outs h
    simp only [runSteps, Except.ok.injEq, Prod.mk.injEq] at h
    obtain ⟨rfl, rfl, rfl, rfl⟩ := h
    exact CloseOpenChain.nil _
  | cons q rest ih =>
    intro t n t' n' trace outs h
    rcases q with ⟨fs, ev⟩
    rw [runSteps_cons] at h
    rcases hstep : watchStep cmp k fs ev t n with _ | ⟨t1, n1, effs1, out1⟩
    · rw [hstep] at h; simp at h
    · simp only [hstep] at h
      rcases hrest : runSteps cmp k rest t1 n1 with _ | ⟨t2, n2, effs2, outs2⟩
      · rw [hrest] at h; simp at h
      · simp only [hrest, Except.ok.injEq, Prod.mk.injEq] at h
        obtain ⟨rfl, rfl, rfl, rfl⟩ := h
        have hstep1 : CloseOpenChain (leafReg t) effs1 (leafReg t1) := by
          rcases ev with ⟨et, fn⟩ | _
          · simp only [watchStep, Except.ok.injEq] at hstep
            have := notifyStep_chain fs cmp t k et fn n
            rw [hstep] at this
            exact this
          · exact errorStep_chain fs cmp t k n t1 n1 effs1 out1 hstep
        exact CloseOpenChain.append hstep1 (ih t1 n1 t2 n2 effs2 outs2 hrest)

theorem liveOf_cons (init : List Nat) (e : Effect) (effs : List Effect) :
    liveOf init (e :: effs) =
      liveOf
        (match e with
          | Effect.openReg _ i => init ++ [i]
          | Effect.closeReg i => init.erase i)
        effs := rfl

/-- Starting from the single live registration a chain begins at, the chain ends
with exactly its final registration live. -/
theorem chain_liveOf {r : Nat} {effs : List Effect} {r' : Nat}
    (h : CloseOpenChain r effs r') : liveOf [r] effs = [r'] := by
  induction h with
  | nil r => rfl
  | step r p rm effs rend _ ih =>
    rw [liveOf_cons, liveOf_cons]
    simpa [List.erase_cons_head] using ih

/-- At every intermediate point of a close-before-open chain, at most one
registration is live. -/
theorem chain_prefix_live {r : Nat} {effs : List Effect} {r' : Nat}
    (h : CloseOpenChain r effs r') :
    ∀ pre suf, effs = pre ++ suf → (liveOf [r] pre).length ≤ 1 := by
  induction h with
  | nil r =>
    intro pre suf heq
    obtain ⟨rfl, rfl⟩ := List.append_eq_nil.mp heq.symm
    simp [liveOf]
  | step r p rm effs rend _ ih =>
    intro pre suf heq
    match pre with
    | [] => simp [liveOf]
    | [e1] =>
      simp only [List.cons_append, List.nil_append, List.cons.injEq] at heq
      obtain ⟨rfl, -⟩ := heq
      simp [liveOf, List.erase_cons_head]
    | e1 :: e2 :: pre2 =>
      simp only [List.cons_append, List.cons.injEq] at heq
      obtain ⟨rfl, rfl, heq⟩ := heq
      rw [liveOf_cons, liveOf_cons]
      simpa [List.erase_cons_head] using ih pre2 suf heq

/-- The well-formedness invariant of a watcher chain: every `missing` frame's
path is below the root (its construction checked `dirname !== path`), and a
`present` registration on the root can only use the directory existence test. -/
def TreeOK (k : ExistsK) : WTree → Prop
  | .present p _ => p = [] → k = ExistsK.dir
  | .missing p sub => p ≠ [] ∧ TreeOK ExistsK.dir sub

/-- Under the root-directory invariant, construction with the directory
existence test always succeeds: the delegation cascade is bounded by the root. -/
theorem fsWatchInit_dir_ok (fs : FsView) (hroot : rootIsDir fs) :
    ∀ (p : SegPath) (n : Nat), ∃ res, fsWatchInit fs .dir p n = .ok res := by
  intro p
  induction p with
  | nil =>
    intro n
    have hr : fs [] = EntryKind.dir := hroot
    have hex : exTest fs .dir [] = true := by simp [exTest, hr]
    exact ⟨_, by rw [fsWatchInit_nil, if_pos hex]⟩
  | cons s rest ih =>
    intro n
    by_cases hex : exTest fs .dir (s :: rest) = true
    · exact ⟨_, by rw [fsWatchInit_cons, if_pos hex]⟩
    · obtain ⟨⟨t, n', effs⟩, hrec⟩ := ih n
      exact ⟨_, by rw [fsWatchInit_cons, if_neg hex, hrec]⟩

/-- A successfully constructed chain satisfies the invariant. -/
theorem fsWatchInit_treeOK (fs : FsView) (hroot : rootIsDir fs) :
    ∀ (p : SegPath) (k : ExistsK) (n : Nat) (t : WTree) (n' : Nat) (effs : List Effect),
      fsWatchInit fs k p n = .ok (t, n', effs) → TreeOK k t := by
  intro p
  induction p with
  | nil =>
    intro k n t n' effs h
    rw [fsWatchInit_nil] at h
    split at h
    · rename_i hex
      simp only [Except.ok.injEq, Prod.mk.injEq] at h
      obtain ⟨rfl, -, -⟩ := h
      intro _
      cases k with
      | dir => rfl
      | file =>
        have hr : fs [] = EntryKind.dir := hroot
        simp [exTest, hr] at hex
    · simp at h
  | cons s rest ih =>
    intro k n t n' effs h
    rw [fsWatchInit_cons] at h
    split at h
    · simp only [Except.ok.injEq, Prod.mk.injEq] at h
      obtain ⟨rfl, -, -⟩ := h
      intro hne
      exact absurd hne (List.cons_ne_nil s rest)
    · split at h
      · simp at h
      · rename_i t0 n0 effs0 heq
        simp only [Except.ok.injEq, Prod.mk.injEq] at h
        obtain ⟨rfl, -, -⟩ := h
        exact ⟨List.cons_ne_nil s rest, ih .dir n t0 n0 effs0 heq⟩

/-- A notification step preserves the invariant. -/
theorem notifyStep_treeOK (fs : FsView) (cmp : String → String → Bool) :
    ∀ (t : WTree) (k : ExistsK) (et fn : String) (n : Nat),
      TreeOK k t → TreeOK k (notifyStep fs cmp k t et fn n).1 := by
  intro t
  induction t with
  | present p r => intro k et fn n hok; exact hok
  | missing p sub ih =>
    intro k et fn n hok
    obtain ⟨hp, hsub⟩ := hok
    rw [notifyStep]
    rcases hrec : notifyStep fs cmp .dir sub et fn n with ⟨sub', n', effs, ev⟩
    have hsub' : TreeOK .dir sub' := by
      have := ih .dir et fn n hsub
      rw [hrec] at this
      exact this
    rcases ev with _ | ⟨et', fn'⟩
    · exact ⟨hp, hsub'⟩
    · by_cases hcond : (et' == "rename" && cmp (basename p) fn' && exTest fs k p) = true
      · simp only [hcond, if_true]
        exact fun h => absurd h hp
      · simp only [hcond, if_false]
        exact ⟨hp, hsub'⟩

/-- Under the root-directory invariant, an error step on an invariant-satisfying
chain never throws, and the invariant is preserved. -/
theorem errorStep_ok_treeOK (fs : FsView) (cmp : String → String → Bool)
    (hroot : rootIsDir fs) :
    ∀ (t : WTree) (k : ExistsK) (n : Nat), TreeOK k t →
      ∃ t' n' effs ev, errorStep fs cmp k t n = .ok (t', n', effs, ev) ∧ TreeOK k t' := by
  intro t
  induction t with
  | present p r =>
    intro k n hok
    by_cases hex : exTest fs k p = true
    · exact ⟨.present p r, n, [], none, by rw [errorStep_present, if_pos hex], hok⟩
    · match p with
      | [] =>
        have hkd : k = ExistsK.dir := hok rfl
        subst hkd
        have hr : fs [] = EntryKind.dir := hroot
        simp [exTest, hr] at hex
      | s :: rest =>
        obtain ⟨⟨sub, n0, effs0⟩, hinit⟩ := fsWatchInit_dir_ok fs hroot rest n
        refine ⟨.missing (s :: rest) sub, n0, Effect.closeReg r :: effs0,
          some ("rename", ""), ?_, ?_⟩
        · simp only [errorStep_present, if_neg hex, hinit]
        · exact ⟨List.cons_ne_nil s rest, fsWatchInit_treeOK fs hroot rest .dir n sub n0 effs0 hinit⟩
  | missing p sub ih =>
    intro k n hok
    obtain ⟨hp, hsub⟩ := hok
    obtain ⟨sub', n0, effs0, ev0, hrec, hsub'⟩ := ih .dir n hsub
    rcases ev0 with _ | ⟨et', fn'⟩
    · exact ⟨.missing p sub', n0, effs0, none,
        by rw [errorStep_missing, hrec], ⟨hp, hsub'⟩⟩
    · by_cases hcond : (et' == "rename" && cmp (basename p) fn' && exTest fs k p) = true
      · refine ⟨.present p n0, n0 + 1,
          effs0 ++ [Effect.closeReg (leafReg sub'), Effect.openReg p n0],
          some ("rename", ""), ?_, fun h => absurd h hp⟩
        rw [errorStep_missing, hrec]
        simp only [hcond, if_true]
      · refine ⟨.missing p sub', n0, effs0, none, ?_, ⟨hp, hsub'⟩⟩
        rw [errorStep_missing, hrec]
        simp [hcond]

/-- Under the root-directory invariant at every delivery, a whole run starting
from an invariant-satisfying chain never throws. -/
theorem runSteps_ok (cmp : String → String → Bool) (k : ExistsK) :
    ∀ (steps : List (FsView × RawEvent)) (t : WTree) (n : Nat),
      (∀ q ∈ steps, rootIsDir q.1) → TreeOK k t →
      ∃ t' n' trace outs, runSteps cmp k steps t n = .ok (t', n', trace, outs)
        ∧ TreeOK k t' := by
  intro steps
  induction steps with
  | nil => intro t n _ hok; exact ⟨t, n, [], [], rfl, hok⟩
  | cons q rest ih =>
    intro t n hroot hok
    rcases q with ⟨fs, ev⟩
    have hrootfs : rootIsDir fs := hroot (fs, ev) (List.mem_cons_self _ _)
    have hrootrest : ∀ q ∈ rest, rootIsDir q.1 :=
      fun q hq => hroot q (List.mem_cons_of_mem _ hq)
    rcases ev with ⟨et, fn⟩ | _
    · rcases hstep : notifyStep fs cmp k t et fn n with ⟨t1, n1, effs1, out1⟩
      have hok1 : TreeOK k t1 := by
        have := notifyStep_treeOK fs cmp t k et fn n hok
        rw [hstep] at this
        exact this
      obtain ⟨t2, n2, trace2, outs2, hrest, hok2⟩ := ih t1 n1 hrootrest hok1
      refine ⟨t2, n2, effs1 ++ trace2, out1.toList ++ outs2, ?_, hok2⟩
      rw [runSteps_cons]
      simp only [watchStep, hstep, hrest]
    · obtain ⟨t1, n1, effs1, out1, hstep, hok1⟩ :=
        errorStep_ok_treeOK fs cmp hrootfs t k n hok
      obtain ⟨t2, n2, trace2, outs2, hrest, hok2⟩ := ih t1 n1 hrootrest hok1
      refine ⟨t2, n2, effs1 ++ trace2, out1.toList ++ outs2, ?_, hok2⟩
      rw [runSteps_cons]
      simp only [watchStep, hstep, hrest]

/-- C4: a path watcher owns at most one live low-level registration at any time.
Construction opens exactly one registration (at the chain's leaf); the effects
of any subsequent run form a close-before-open transition chain, so after the
whole trace exactly the final leaf registration is live, and at every prefix of
the trace at most one registration is live — no registration is leaked across a
transition. -/
theorem fsWatch_single_live_registration (cmp : String → String → Bool) (k : ExistsK)
    (fs0 : FsView) (p0 : SegPath) (steps : List (FsView × RawEvent))
    (t0 : WTree) (n0 : Nat) (effs0 : List Effect)
    (tf : WTree) (nf : Nat) (trace : List Effect) (outs : List (String × String))
    (hinit : fsWatchInit fs0 k p0 0 = .ok (t0, n0, effs0))
    (hrun : runSteps cmp k steps t0 n0 = .ok (tf, nf, trace, outs)) :
    effs0 = [Effect.openReg (leafPath t0) (leafReg t0)]
    ∧ CloseOpenChain (leafReg t0) trace (leafReg tf)
    ∧ liveOf [] (effs0 ++ trace) = [leafReg tf]
    ∧ ∀ pre suf, effs0 ++ trace = pre ++ suf → (liveOf [] pre).length ≤ 1 := by
  obtain ⟨he, hl, -⟩ := fsWatchInit_effects fs0 p0 k 0 t0 n0 effs0 hinit
  have hchain := runSteps_chain cmp k steps t0 n0 tf nf trace outs hrun
  have heffs : effs0 = [Effect.openReg (leafPath t0) (leafReg t0)] := by rw [he, hl]
  refine ⟨heffs, hchain, ?_, ?_⟩
  · rw [heffs]
    have hred : liveOf [] ([Effect.openReg (leafPath t0) (leafReg t0)] ++ trace)
        = liveOf [leafReg t0] trace := rfl
    rw [hred, chain_liveOf hchain]
  · intro pre suf heq
    rw [heffs] at heq
    match pre with
    | [] => simp [liveOf]
    | e :: pre' =>
      simp only [List.cons_append, List.nil_append, List.cons.injEq] at heq
      obtain ⟨rfl, heq⟩ := heq
      have hred : liveOf [] (Effect.openReg (leafPath t0) (leafReg t0) :: pre')
          = liveOf [leafReg t0] pre' := rfl
      rw [hred]
      exact chain_prefix_live hchain pre' suf heq

/-- A store view with only the root (as a directory). -/
def wfs0 : FsView := fun p =>
  match p with
  | [] => EntryKind.dir
  | _ => EntryKind.absent

/-- A store view with the root directory and a file `/a`. -/
def wfs1 : FsView := fun p =>
  match p with
  | [] => EntryKind.dir
  | ["a"] => EntryKind.file
  | _ => EntryKind.absent

/-- The configured string comparer used by the witnesses: literal equality
(`fs.stringComparer(a, b) === 0` under case sensitivity). -/
def eqComparer : String → String → Bool := fun a b => a == b

/-- Witness for `fsWatch_single_live_registration`: watch `/a` as a file while
it is absent, then deliver the rename notification for its creation. The
construction opens registration 0 on the root, and the transition closes 0
before opening 1 on `/a`. -/
theorem fsWatch_single_live_registration_witness :
    ([Effect.openReg ([] : SegPath) 0] = [Effect.openReg [] 0])
    ∧ CloseOpenChain 0 [Effect.closeReg 0, Effect.openReg ["a"] 1] 1
    ∧ liveOf [] ([Effect.openReg [] 0] ++ [Effect.closeReg 0, Effect.openReg ["a"] 1]) = [1]
    ∧ ∀ pre suf,
        [Effect.openReg ([] : SegPath) 0] ++ [Effect.closeReg 0, Effect.openReg ["a"] 1]
          = pre ++ suf →
        (liveOf [] pre).length ≤ 1 :=
  fsWatch_single_live_registration eqComparer ExistsK.file wfs0 ["a"]
    [(wfs1, RawEvent.notify "rename" "a")]
    (WTree.missing ["a"] (WTree.present [] 0)) 1 [Effect.openReg [] 0]
    (WTree.present ["a"] 1) 2 [Effect.closeReg 0, Effect.openReg ["a"] 1] [("rename", "")]
    rfl rfl

/-- C6: the `ENOENT` configuration error (a `Missing` watcher rooted above the
filesystem root) can only arise synchronously at construction — watching the
root with the file existence test fails at `fsWatchInit` — while after a
successful construction, no error is ever raised across the notification
callback boundary, for any sequence of deliveries in which the store keeps its
root directory. -/
theorem fsWatch_error_only_at_construction (cmp : String → String → Bool) (k : ExistsK)
    (fs0 : FsView) (p0 : SegPath) (steps : List (FsView × RawEvent))
    (t0 : WTree) (n0 : Nat) (effs0 : List Effect)
    (hroot0 : rootIsDir fs0)
    (hinit : fsWatchInit fs0 k p0 0 = .ok (t0, n0, effs0))
    (hsteps : ∀ q ∈ steps, rootIsDir q.1) :
    (∃ res, runSteps cmp k steps t0 n0 = .ok res)
    ∧ fsWatchInit fs0 ExistsK.file [] 0 = .error () := by
  constructor
  · obtain ⟨t', n', trace, outs, hrun, -⟩ :=
      runSteps_ok cmp k steps t0 n0 hsteps
        (fsWatchInit_treeOK fs0 hroot0 p0 k 0 t0 n0 effs0 hinit)
    exact ⟨_, hrun⟩
  · have hr : fs0 [] = EntryKind.dir := hroot0
    rw [fsWatchInit_nil, if_neg (by simp [exTest, hr])]

/-- Witness for `fsWatch_error_only_at_construction` on the concrete run of
`fsWatch_single_live_registration_witness`. -/
theorem fsWatch_error_only_at_construction_witness :
    (∃ res, runSteps eqComparer ExistsK.file [(wfs1, RawEvent.notify "rename" "a")]
        (WTree.missing ["a"] (WTree.present [] 0)) 1 = .ok res)
    ∧ fsWatchInit wfs0 ExistsK.file [] 0 = .error () :=
  fsWatch_error_only_at_construction eqComparer ExistsK.file wfs0 ["a"]
    [(wfs1, RawEvent.notify "rename" "a")]
    (WTree.missing ["a"] (WTree.present [] 0)) 1 [Effect.openReg [] 0]
    rfl rfl
    (by
      intro q hq
      simp only [List.mem_singleton] at hq
      subst hq
      rfl)

/-- C7: a watcher in the `Missing` state (delegating to a registration on its
parent) transitions to `Present` exactly when a rename notification's name
matches the watched path's base name under the configured comparer and the
existence test on the target succeeds; the transition closes the ancestor
registration, then opens a direct registration on the target, and invokes the
frame's callback once with the synthetic rename notification carrying no
filename. Any other notification, including every non-rename one, changes
nothing and invokes no callback. -/
theorem missing_to_present_transition (fs : FsView) (cmp : String → String → Bool)
    (k : ExistsK) (p q : SegPath) (r : Nat) (fn : String) (n : Nat) :
    (notifyStep fs cmp k (.missing p (.present q r)) "rename" fn n =
      if cmp (basename p) fn && exTest fs k p then
        (.present p n, n + 1, [Effect.closeReg r, Effect.openReg p n], some ("rename", ""))
      else (.missing p (.present q r), n, [], none))
    ∧ (∀ et fn', et ≠ "rename" →
        notifyStep fs cmp k (.missing p (.present q r)) et fn' n
          = (.missing p (.present q r), n, [], none)) := by
  constructor
  · simp only [notifyStep, beq_self_eq_true, Bool.true_and, List.nil_append, leafReg]
  · intro et fn' het
    have hne : (et == "rename") = false := beq_eq_false_iff_ne.mpr het
    simp only [notifyStep, hne, Bool.false_and, Bool.false_eq_true, if_false]

/-- Witness for `missing_to_present_transition`: a `"change"` notification on
the ancestor registration is ignored. -/
theorem missing_to_present_transition_witness :
    notifyStep wfs1 eqComparer ExistsK.file (WTree.missing ["a"] (WTree.present [] 0))
      "change" "x" 5 = (WTree.missing ["a"] (WTree.present [] 0), 5, [], none) :=
  (missing_to_present_transition wfs1 eqComparer ExistsK.file ["a"] [] 0 "x" 5).2
    "change" "x" (by decide)

/-- The notification handler `watchDirectory` registers with `fsWatch`
(lines 234-236): on a rename it resolves a nonempty child name against the
directory path (the empty name — JavaScript falsy — yields the directory's own
path); any other event type invokes no callback. `resolve` is the
`vpath.resolve` collaborator. -/
def watchDirectoryCallback (resolve : String → String → String) (path : String)
    (eventType filename : String) : Option String :=
  if eventType = "rename" then
    some (if filename ≠ "" then resolve path filename else path)
  else none

/-- C8: a rename notification carrying a child name invokes the caller's
callback with the name resolved against the directory path; a rename carrying no
name invokes it with the directory's own path; a `"change"` notification
invokes no callback at all. -/
theorem watchDirectory_dispatch (resolve : String → String → String) (path : String) :
    (∀ name, name ≠ "" →
      watchDirectoryCallback resolve path "rename" name = some (resolve path name))
    ∧ watchDirectoryCallback resolve path "rename" "" = some path
    ∧ (∀ fn, watchDirectoryCallback resolve path "change" fn = none) := by
  refine ⟨fun name hn => ?_, ?_, fun fn => ?_⟩
  · simp [watchDirectoryCallback, hn]
  · simp [watchDirectoryCallback]
  · simp [watchDirectoryCallback]

/-- Witness for `watchDirectory_dispatch` on the spec's example: directory `/d`,
child `e`, with path joining as resolution. -/
theorem watchDirectory_dispatch_witness :
    watchDirectoryCallback combine "/d" "rename" "e" = some "/d/e"
    ∧ watchDirectoryCallback combine "/d" "rename" "" = some "/d"
    ∧ watchDirectoryCallback combine "/d" "change" "e" = none :=
  ⟨(watchDirectory_dispatch combine "/d").1 "e" (by decide),
    (watchDirectory_dispatch combine "/d").2.1,
    (watchDirectory_dispatch combine "/d").2.2 "e"⟩

/-- The observable state affected by the `close()` of the disposable `fsWatch`
returns (lines 244-248): the current watcher chain (whose `watcher` variables
`close` never reassigns) and the store's list of live registrations. Modelled
from the spec for the store side (`vfs.ts`, not part of the sources): closing
the chain closes its single live leaf registration, and the store removes it
from the live list, treating the removal of an already-closed registration as a
no-op. -/
def closeWatchSys (s : WTree × List Nat) : WTree × List Nat :=
  (s.1, s.2.erase (leafReg s.1))

/-- C9: `close()` is idempotent — a second close is a total no-op (and, being a
total function of the state, raises no error). -/
theorem close_idempotent (s : WTree × List Nat) (h : s.2.Nodup) :
    closeWatchSys (closeWatchSys s) = closeWatchSys s := by
  rcases s with ⟨t, live⟩
  simp only [closeWatchSys]
  have hnm : leafReg t ∉ live.erase (leafReg t) := by
    intro hm
    exact absurd ((h.mem_erase_iff).mp hm).1 (by simp)
  rw [List.erase_of_not_mem hnm]

/-- Witness for `close_idempotent`: a watcher holding registration 0, with 0 the
only live registration. -/
theorem close_idempotent_witness :
    closeWatchSys (closeWatchSys (WTree.present ["a"] 0, [0]))
      = closeWatchSys (WTree.present ["a"] 0, [0]) :=
  close_idempotent (WTree.present ["a"] 0, [0]) (by simp)

end VfsUtils
